import Mathlib

/-!
Verification of the inventory-tracking utility `pj3streamlit.py`.

The program is a Streamlit CRUD application over a flat JSON file.  We give a
shallow embedding of its data model and operations:

  * `Item` models one inventory record (a Python dict with the five keys
    `name`, `category`, `price`, `stock`, `rating`).  Numbers are modelled as
    rationals (`price`, `rating`) and integers (`stock`).
  * `JValue` models a parsed JSON document (the result of `json.load`), and
    `FileState` models the state of `inventory.json` on disk: missing,
    present-but-unparsable, or parsed to a `JValue`.
  * Each Python function becomes a pure Lean function; in-place mutation of
    the inventory list becomes returning the new list, and the `save` /
    "not found" side effects of `manage_inventory` become a returned Bool
    flag (`true` = the collection was persisted via `save_inventory`,
    `false` = a "not found" warning was reported and nothing was persisted).
-/

/-- One inventory record: the five-key dict used throughout
`pj3streamlit.py`. -/
structure Item where
  name : String
  category : String
  price : ℚ
  stock : ℤ
  rating : ℚ
deriving DecidableEq, Repr

/-- Python's `str.lower()`, modelled as character-wise lower-casing of the
string. -/
def pyLower (s : String) : String :=
  ⟨s.data.map Char.toLower⟩

/-- The case-insensitive name match used by the Edit-by-Name and
Delete-by-Name branches of `manage_inventory`: both lower-case the user's
input (`.lower()` on the text input) and compare it with
`item['name'].lower()`. -/
def nameMatches (n : String) (it : Item) : Bool :=
  pyLower it.name == pyLower n

/-- The keep-test of the loop in `filter_inventory` (lines 66-76): an item is
skipped (`continue`) when any of the four guards fires, hence kept exactly
when all four guards are false. -/
def keepItem (category : String) (max_price min_rating : ℚ) (min_stock : ℤ)
    (it : Item) : Bool :=
  !(category != "All" && pyLower it.category != pyLower category) &&
  !(decide (max_price > 0) && decide (it.price > max_price)) &&
  !(decide (min_rating > 0) && decide (it.rating < min_rating)) &&
  !(decide (min_stock > 0) && decide (it.stock < min_stock))

/-- `filter_inventory` (the filtering part, lines 66-76): a single pass over
the collection appending every kept item to a fresh list, i.e. a filter. -/
def filter_inventory (inv : List Item) (category : String)
    (max_price min_rating : ℚ) (min_stock : ℤ) : List Item :=
  inv.filter (keepItem category max_price min_rating min_stock)

/-- The keep-predicate as the specification words it: keep iff
(category is "All" OR the category matches case-insensitively) AND
(max_price ≤ 0 OR price ≤ max_price) AND (min_rating ≤ 0 OR
rating ≥ min_rating) AND (min_stock ≤ 0 OR stock ≥ min_stock).
Written from the spec, to be compared with `keepItem` from the source. -/
def specKeepItem (category : String) (max_price min_rating : ℚ)
    (min_stock : ℤ) (it : Item) : Prop :=
  (category = "All" ∨ pyLower it.category = pyLower category) ∧
  (max_price ≤ 0 ∨ it.price ≤ max_price) ∧
  (min_rating ≤ 0 ∨ it.rating ≥ min_rating) ∧
  (min_stock ≤ 0 ∨ it.stock ≥ min_stock)

instance (c : String) (mp mr : ℚ) (ms : ℤ) (it : Item) :
    Decidable (specKeepItem c mp mr ms it) := by
  unfold specKeepItem; infer_instance

/-- The Delete-by-Name branch of `manage_inventory` (lines 129-138): the
collection is rebuilt from the items whose lower-cased name differs from the
lower-cased input; if the length shrank the result is saved (`true`),
otherwise a "not found" warning is shown and nothing is persisted
(`false`). -/
def deleteByName (inv : List Item) (n : String) : List Item × Bool :=
  let target := pyLower n
  let remaining := inv.filter (fun it => pyLower it.name != target)
  (remaining, decide (remaining.length < inv.length))

/-- A parsed JSON document, as returned by Python's `json.load`: `null`,
booleans, numbers, strings, arrays and objects (objects keep the key order
`json.load` produces). -/
inductive JValue where
  | null : JValue
  | bool (b : Bool) : JValue
  | num (q : ℚ) : JValue
  | str (s : String) : JValue
  | arr (xs : List JValue) : JValue
  | obj (fields : List (String × JValue)) : JValue

/-- Python truthiness (`if data:`) of a value obtained from `json.load`:
`None`, `False`, zero, the empty string, the empty list and the empty dict
are falsy; everything else is truthy. -/
def JValue.truthy : JValue → Bool
  | .null => false
  | .bool b => b
  | .num q => decide (q ≠ 0)
  | .str s => !s.isEmpty
  | .arr xs => !xs.isEmpty
  | .obj fields => !fields.isEmpty

/-- The state of `inventory.json` on disk, as seen by `load_inventory`:
absent (`os.path.exists` false), present but raising `json.JSONDecodeError`,
or present and parsing to a `JValue`. -/
inductive FileState where
  | missing : FileState
  | invalid : FileState
  | parsed (data : JValue) : FileState

/-- `load_inventory` (lines 9-22): if the file exists and parses, return the
parsed data when it is truthy; in every other case (missing file, parse
error, falsy data) return the fallback inventory.  The fallback dataset comes
from the external module `inventory_data`, so it is passed as an argument
here. -/
def load_inventory (fs : FileState) (fallback : JValue) : JValue :=
  match fs with
  | .missing => fallback
  | .invalid => fallback
  | .parsed data => if data.truthy then data else fallback

/-- Serialization of one `Item` to JSON, with the key order of the dict
literal built in the Add branch of `manage_inventory`. -/
def encodeItem (it : Item) : JValue :=
  .obj [("name", .str it.name), ("category", .str it.category),
        ("price", .num it.price), ("stock", .num (it.stock : ℚ)),
        ("rating", .num it.rating)]

/-- Serialization of an inventory to the JSON array `json.dump` writes. -/
def encodeItems (inv : List Item) : JValue :=
  .arr (inv.map encodeItem)

/-- `save_inventory` (lines 27-29): overwrite `inventory.json` with the
serialized collection.  We model the post-state of a successful write (the
file is writable, so no `IOError` propagates): the file now parses to the
serialized collection. -/
def save_inventory (inv : List Item) : FileState :=
  .parsed (encodeItems inv)

/-- Reading one serialized `Item` back from JSON: the inverse of
`encodeItem`, defined on exactly the shape `encodeItem` produces. -/
def decodeItem : JValue → Option Item
  | .obj [("name", .str n), ("category", .str c), ("price", .num p),
          ("stock", .num s), ("rating", .num r)] =>
    if s.den = 1 then some ⟨n, c, p, s.num, r⟩ else none
  | _ => none

/-- Reading back a list of serialized items, failing if any entry fails. -/
def decodeItemList : List JValue → Option (List Item)
  | [] => some []
  | v :: vs =>
    match decodeItem v, decodeItemList vs with
    | some it, some rest => some (it :: rest)
    | _, _ => none

/-- Reading back a serialized inventory: the inverse of `encodeItems`. -/
def decodeItems : JValue → Option (List Item)
  | .arr xs => decodeItemList xs
  | _ => none

/-- One step of Python's `max` with a key: the running best is replaced only
when a strictly higher rating appears, so ties keep the earlier item. -/
def pyMaxStep (best y : Item) : Item :=
  if best.rating < y.rating then y else best

/-- Python's `max(inventory, key=lambda x: x['rating'])` (line 40 of
`show_summary`): fold `pyMaxStep` over the list; `none` on the empty list
(the code only calls it under `if inventory:`). -/
def maxByRating : List Item → Option Item
  | [] => none
  | x :: xs => some (xs.foldl pyMaxStep x)

/-- The display values computed by `show_summary` (lines 34-43).  The average
price, highest-rated item and total stock are only computed under the
`if inventory:` guard, hence `Option`. -/
structure Summary where
  totalItems : ℕ
  avgPrice : Option ℚ
  highestRated : Option Item
  totalStock : Option ℤ
deriving DecidableEq, Repr

/-- `show_summary` (lines 34-43) as a pure function from the collection to
the displayed statistics. -/
def show_summary (inv : List Item) : Summary :=
  { totalItems := inv.length
  , avgPrice :=
      if inv.isEmpty then none
      else some ((inv.map Item.price).sum / (inv.length : ℚ))
  , highestRated := maxByRating inv
  , totalStock :=
      if inv.isEmpty then none
      else some ((inv.map Item.stock).sum) }

/-- The Add branch of `manage_inventory` (lines 92-109): append the submitted
record to the end of the collection and save.  The Bool is the persist flag:
this branch always saves. -/
def addItem (inv : List Item) (candidate : Item) : List Item × Bool :=
  (inv ++ [candidate], true)

/-- The range constraints the Add form enforces on its number inputs
(`min_value` / `max_value` on lines 96-98): price ≥ 0, stock ≥ 0,
0 ≤ rating ≤ 5. -/
def validCandidate (it : Item) : Prop :=
  0 ≤ it.price ∧ 0 ≤ it.stock ∧ 0 ≤ it.rating ∧ it.rating ≤ 5

instance (it : Item) : Decidable (validCandidate it) := by
  unfold validCandidate; infer_instance

/-- The search-and-update of the Edit-by-Name branch: walk the list, and at
the first item whose lower-cased name equals `target` overwrite its `price`,
`stock` and `rating` in place; `none` when no item matches
(`next(..., None)` on line 113 returning `None`). -/
def editFirst (target : String) (p : ℚ) (s : ℤ) (r : ℚ) :
    List Item → Option (List Item)
  | [] => none
  | it :: rest =>
    if pyLower it.name == target then
      some ({ it with price := p, stock := s, rating := r } :: rest)
    else
      (editFirst target p s r rest).map (fun l => it :: l)

/-- The Edit-by-Name branch of `manage_inventory` (lines 111-127): lower-case
the input name, mutate the first case-insensitive match in place and save
(`true`); when no item matches, report "not found" and persist nothing
(`false`). -/
def editByName (inv : List Item) (n : String) (p : ℚ) (s : ℤ) (r : ℚ) :
    List Item × Bool :=
  match editFirst (pyLower n) p s r inv with
  | none => (inv, false)
  | some inv2 => (inv2, true)

/-! ## Helper lemmas -/

lemma filter_length_lt_iff {α : Type} {p : α → Bool} {l : List α} :
    (l.filter p).length < l.length ↔ ∃ x ∈ l, p x = false := by
  induction l with
  | nil => simp
  | cons a l ih =>
    by_cases h : p a
    · simpa [List.filter_cons, h, Nat.succ_lt_succ_iff] using ih
    · simp only [Bool.not_eq_true] at h
      simp only [List.filter_cons, h, if_neg, Bool.false_eq_true, not_false_iff,
        List.length_cons, List.mem_cons]
      constructor
      · intro _; exact ⟨a, Or.inl rfl, h⟩
      · intro _; exact Nat.lt_succ_of_le (List.length_filter_le _ _)

lemma keepItem_iff (c : String) (mp mr : ℚ) (ms : ℤ) (it : Item) :
    keepItem c mp mr ms it = true ↔ specKeepItem c mp mr ms it := by
  unfold keepItem specKeepItem
  simp only [Bool.and_eq_true, Bool.not_and, Bool.or_eq_true, Bool.not_eq_true',
    bne_eq_false_iff_eq, decide_eq_false_iff_not, not_lt, ge_iff_le, and_assoc]

/-! ## Claims -/

/-- C1: `deleteByName` removes every item whose name matches the lookup name
case-insensitively (not just the first), preserving the relative order of the
remaining items; it reports not-found and does not persist exactly when the
length is unchanged, and persists exactly when some item matched.  On
`[{name:"x"},{name:"y"},{name:"x"}]`, deleting `"x"` leaves `[{name:"y"}]`. -/
theorem C1_deleteByName_spec :
    (∀ (inv : List Item) (n : String),
      (deleteByName inv n).1 = inv.filter (fun it => !(nameMatches n it)) ∧
      ((deleteByName inv n).2 = false ↔ (deleteByName inv n).1.length = inv.length) ∧
      ((deleteByName inv n).2 = true ↔ ∃ it ∈ inv, nameMatches n it = true)) ∧
    deleteByName [⟨"x", "c1", 1, 1, 1⟩, ⟨"y", "c2", 2, 2, 2⟩, ⟨"x", "c3", 3, 3, 3⟩] "x"
      = ([⟨"y", "c2", 2, 2, 2⟩], true) := by
  constructor
  · intro inv n
    refine ⟨rfl, ?_, ?_⟩
    · have hle := List.length_filter_le (fun it => pyLower it.name != pyLower n) inv
      simp only [deleteByName, decide_eq_false_iff_not, not_lt]
      constructor
      · intro h; exact Nat.le_antisymm hle h
      · intro h; exact le_of_eq h.symm
    · simp only [deleteByName, decide_eq_true_eq]
      rw [filter_length_lt_iff]
      simp [nameMatches, bne_eq_false_iff_eq]
  · decide

/-- C2: the filter keeps an item iff (category is "All" or the item's
category equals the chosen one case-insensitively) and (max_price ≤ 0 or
price ≤ max_price) and (min_rating ≤ 0 or rating ≥ min_rating) and
(min_stock ≤ 0 or stock ≥ min_stock); the result is the subsequence of the
original collection of exactly those items, in the original order, and the
source collection is left untouched (the result is a fresh filtered list). -/
theorem C2_filter_inventory_spec :
    ∀ (inv : List Item) (c : String) (mp mr : ℚ) (ms : ℤ),
      (∀ it, keepItem c mp mr ms it = true ↔ specKeepItem c mp mr ms it) ∧
      filter_inventory inv c mp mr ms
        = inv.filter (fun it => decide (specKeepItem c mp mr ms it)) ∧
      (filter_inventory inv c mp mr ms).Sublist inv := by
  intro inv c mp mr ms
  refine ⟨fun it => keepItem_iff c mp mr ms it, ?_, List.filter_sublist inv⟩
  unfold filter_inventory
  apply List.filter_congr
  intro x _
  calc keepItem c mp mr ms x
      = decide (keepItem c mp mr ms x = true) := (Bool.decide_coe _).symm
    _ = decide (specKeepItem c mp mr ms x) :=
        decide_eq_decide.mpr (keepItem_iff c mp mr ms x)

/-- C3: filtering with category "All" and all three numeric thresholds equal
to 0 returns the collection itself: nothing is excluded and order is kept. -/
theorem C3_filter_all_zero_identity :
    ∀ inv : List Item, filter_inventory inv "All" 0 0 0 = inv := by
  intro inv
  unfold filter_inventory
  apply List.filter_eq_self.mpr
  intro a _
  unfold keepItem
  simp

/-- C4: `load_inventory` returns the parsed sequence when the file exists
and parses to a non-empty sequence; it returns the fallback dataset when the
file is missing, unparsable, or parses to the empty sequence; it is a total
function (never fails fatally). -/
theorem C4_load_inventory_spec :
    ∀ (fb : JValue) (xs : List JValue),
      load_inventory .missing fb = fb ∧
      load_inventory .invalid fb = fb ∧
      load_inventory (.parsed (.arr [])) fb = fb ∧
      (xs ≠ [] → load_inventory (.parsed (.arr xs)) fb = .arr xs) := by
  intro fb xs
  refine ⟨rfl, rfl, rfl, ?_⟩
  intro h
  simp [load_inventory, JValue.truthy, h]

/-- Witness for C4 at concrete inputs: fallback `null`, stored array
`[true]`. -/
theorem C4_load_inventory_spec_witness :
    load_inventory .missing .null = .null ∧
    load_inventory .invalid .null = .null ∧
    load_inventory (.parsed (.arr [])) .null = .null ∧
    load_inventory (.parsed (.arr [.bool true])) .null = .arr [.bool true] := by
  obtain ⟨h1, h2, h3, h4⟩ := C4_load_inventory_spec .null [.bool true]
  exact ⟨h1, h2, h3, h4 (List.cons_ne_nil _ _)⟩

/-- C10: when the file exists and parses to any truthy JSON value,
`load_inventory` returns that value unchanged — no validation that it is an
array of well-formed items. -/
theorem C10_load_no_validation :
    ∀ (v fb : JValue), v.truthy = true → load_inventory (.parsed v) fb = v := by
  intro v fb h
  simp [load_inventory, h]

/-- Witness for C10: a JSON object and a non-empty JSON string are both
returned as the session's collection. -/
theorem C10_load_no_validation_witness :
    (JValue.obj [("a", JValue.num 1)]).truthy = true ∧
    load_inventory (.parsed (.obj [("a", JValue.num 1)])) .null
      = .obj [("a", JValue.num 1)] ∧
    (JValue.str "hi").truthy = true ∧
    load_inventory (.parsed (.str "hi")) .null = .str "hi" := by
  have hs : (JValue.str "hi").truthy = true := by decide
  exact ⟨rfl, C10_load_no_validation _ .null rfl, hs,
    C10_load_no_validation _ .null hs⟩

lemma decodeItem_encodeItem (it : Item) : decodeItem (encodeItem it) = some it := by
  unfold decodeItem encodeItem
  simp [Rat.den_intCast, Rat.num_intCast]

lemma decodeItemList_encode (inv : List Item) :
    decodeItemList (inv.map encodeItem) = some inv := by
  induction inv with
  | nil => rfl
  | cons a l ih => simp [decodeItemList, decodeItem_encodeItem, ih]

/-- C5: for a non-empty collection and a writable file, saving and then
loading returns the collection: the loaded document is exactly the
serialized collection, and deserializing it gives back the collection. -/
theorem C5_save_load_roundtrip :
    ∀ (inv : List Item) (fb : JValue), inv ≠ [] →
      load_inventory (save_inventory inv) fb = encodeItems inv ∧
      decodeItems (encodeItems inv) = some inv := by
  intro inv fb h
  constructor
  · simp [save_inventory, load_inventory, encodeItems, JValue.truthy, h]
  · simp [decodeItems, encodeItems, decodeItemList_encode]

/-- Witness for C5 at the one-item collection `[{a, b, 1, 2, 3}]`. -/
theorem C5_save_load_roundtrip_witness :
    ([⟨"a", "b", 1, 2, 3⟩] : List Item) ≠ [] ∧
    (load_inventory (save_inventory [⟨"a", "b", 1, 2, 3⟩]) .null
        = encodeItems [⟨"a", "b", 1, 2, 3⟩] ∧
      decodeItems (encodeItems [⟨"a", "b", 1, 2, 3⟩]) = some [⟨"a", "b", 1, 2, 3⟩]) :=
  ⟨List.cons_ne_nil _ _,
    C5_save_load_roundtrip [⟨"a", "b", 1, 2, 3⟩] .null (List.cons_ne_nil _ _)⟩


lemma find?_congr_mem {α : Type} {p q : α → Bool} {l : List α}
    (h : ∀ x ∈ l, p x = q x) : l.find? p = l.find? q := by
  induction l with
  | nil => rfl
  | cons a l ih =>
    have ha := h a (List.mem_cons_self a l)
    cases hq : q a
    · rw [List.find?_cons_of_neg _ (by simp [ha, hq]),
        List.find?_cons_of_neg _ (by simp [hq])]
      exact ih fun x hx => h x (List.mem_cons_of_mem _ hx)
    · rw [List.find?_cons_of_pos _ (by simp [ha, hq]),
        List.find?_cons_of_pos _ (by simp [hq])]

lemma foldl_max_invariant (l : List Item) : ∀ x : Item,
    (∀ y ∈ x :: l, y.rating ≤ (l.foldl pyMaxStep x).rating) ∧
    (x :: l).find? (fun y => decide ((l.foldl pyMaxStep x).rating ≤ y.rating))
      = some (l.foldl pyMaxStep x) := by
  induction l with
  | nil =>
    intro x
    simp only [List.foldl_nil]
    refine ⟨?_, ?_⟩
    · intro y hy
      rcases List.mem_singleton.mp hy with rfl
      exact le_refl _
    · rw [List.find?_cons_of_pos _ (by simp)]
  | cons y ys ih =>
    intro x
    by_cases hxy : x.rating < y.rating
    · have hstep : pyMaxStep x y = y := if_pos hxy
      obtain ⟨ihle, ihfind⟩ := ih y
      have hym : y.rating ≤ (ys.foldl pyMaxStep y).rating :=
        ihle y (List.mem_cons_self _ _)
      rw [List.foldl_cons, hstep]
      constructor
      · intro z hz
        rcases List.mem_cons.mp hz with rfl | hz
        · exact le_trans (le_of_lt hxy) hym
        · exact ihle z hz
      · rw [List.find?_cons_of_neg _ (by
          simp only [decide_eq_true_eq, not_le]
          exact lt_of_lt_of_le hxy hym)]
        exact ihfind
    · have hstep : pyMaxStep x y = x := if_neg hxy
      have hyx : y.rating ≤ x.rating := le_of_not_lt hxy
      obtain ⟨ihle, ihfind⟩ := ih x
      have hxm : x.rating ≤ (ys.foldl pyMaxStep x).rating :=
        ihle x (List.mem_cons_self _ _)
      rw [List.foldl_cons, hstep]
      constructor
      · intro z hz
        rcases List.mem_cons.mp hz with rfl | hz
        · exact hxm
        · rcases List.mem_cons.mp hz with rfl | hz2
          · exact le_trans hyx hxm
          · exact ihle z (List.mem_cons_of_mem _ hz2)
      · by_cases hpx : (ys.foldl pyMaxStep x).rating ≤ x.rating
        · have hfx : (x :: ys).find?
              (fun y => decide ((ys.foldl pyMaxStep x).rating ≤ y.rating)) = some x :=
            List.find?_cons_of_pos _ (by simpa using hpx)
          have hmx : x = ys.foldl pyMaxStep x :=
            Option.some.inj (hfx.symm.trans ihfind)
          rw [List.find?_cons_of_pos _ (by
            simp only [decide_eq_true_eq]
            exact le_of_eq (congrArg Item.rating hmx).symm)]
          exact congrArg some hmx
        · rw [List.find?_cons_of_neg _ (by simpa using hpx),
            List.find?_cons_of_neg _ (by
              simp only [decide_eq_true_eq, not_le]
              exact lt_of_le_of_lt hyx (lt_of_not_le hpx))]
          exact (List.find?_cons_of_neg _ (by simpa using hpx)).symm.trans ihfind

/-- C6: on a non-empty collection, `maxByRating` (the
`max(inventory, key=lambda x: x['rating'])` of `show_summary`) returns an
item of the collection with maximal rating, and it is the first item of the
collection whose rating attains the maximum. -/
theorem C6_highest_rated_first_max :
    ∀ inv : List Item, inv ≠ [] → ∃ m, maxByRating inv = some m ∧ m ∈ inv ∧
      (∀ y ∈ inv, y.rating ≤ m.rating) ∧
      inv.find? (fun y => decide (y.rating = m.rating)) = some m := by
  intro inv h
  cases inv with
  | nil => exact absurd rfl h
  | cons x xs =>
    obtain ⟨hle, hfind⟩ := foldl_max_invariant xs x
    refine ⟨xs.foldl pyMaxStep x, rfl, List.mem_of_find?_eq_some hfind, hle, ?_⟩
    rw [← hfind]
    apply find?_congr_mem
    intro z hz
    have hzle := hle z hz
    simp only [decide_eq_decide]
    exact ⟨fun hzz => le_of_eq hzz.symm, fun hlez => le_antisymm hzle hlez⟩

/-- Witness for C6 at the spec's example `[{r:3},{r:5},{r:5},{r:2}]`: the
result is the second element, the first occurrence of the maximal rating. -/
theorem C6_highest_rated_first_max_witness :
    ([⟨"a", "c", 0, 0, 3⟩, ⟨"b", "c", 0, 0, 5⟩, ⟨"d", "c", 0, 0, 5⟩,
        ⟨"e", "c", 0, 0, 2⟩] : List Item) ≠ [] ∧
    (∃ m, maxByRating [⟨"a", "c", 0, 0, 3⟩, ⟨"b", "c", 0, 0, 5⟩,
          ⟨"d", "c", 0, 0, 5⟩, ⟨"e", "c", 0, 0, 2⟩] = some m ∧
      m ∈ ([⟨"a", "c", 0, 0, 3⟩, ⟨"b", "c", 0, 0, 5⟩, ⟨"d", "c", 0, 0, 5⟩,
          ⟨"e", "c", 0, 0, 2⟩] : List Item) ∧
      (∀ y ∈ ([⟨"a", "c", 0, 0, 3⟩, ⟨"b", "c", 0, 0, 5⟩, ⟨"d", "c", 0, 0, 5⟩,
          ⟨"e", "c", 0, 0, 2⟩] : List Item), y.rating ≤ m.rating) ∧
      ([⟨"a", "c", 0, 0, 3⟩, ⟨"b", "c", 0, 0, 5⟩, ⟨"d", "c", 0, 0, 5⟩,
          ⟨"e", "c", 0, 0, 2⟩] : List Item).find?
          (fun y => decide (y.rating = m.rating)) = some m) ∧
    maxByRating [⟨"a", "c", 0, 0, 3⟩, ⟨"b", "c", 0, 0, 5⟩, ⟨"d", "c", 0, 0, 5⟩,
        ⟨"e", "c", 0, 0, 2⟩] = some ⟨"b", "c", 0, 0, 5⟩ :=
  ⟨List.cons_ne_nil _ _,
    C6_highest_rated_first_max _ (List.cons_ne_nil _ _), by decide⟩

/-- C7: on the empty collection `show_summary` does not compute the average
price (no division is reached, hence no division-by-zero fault); the average
is computed exactly when the collection is non-empty. -/
theorem C7_no_average_on_empty :
    (show_summary []).avgPrice = none ∧
    ∀ inv : List Item, inv ≠ [] →
      (show_summary inv).avgPrice
        = some ((inv.map Item.price).sum / (inv.length : ℚ)) := by
  refine ⟨rfl, ?_⟩
  intro inv h
  simp [show_summary, h]

/-- Witness for C7 at the one-item collection. -/
theorem C7_no_average_on_empty_witness :
    (show_summary []).avgPrice = none ∧
    ([⟨"a", "b", 4, 1, 2⟩] : List Item) ≠ [] ∧
    (show_summary [⟨"a", "b", 4, 1, 2⟩]).avgPrice
      = some ((([⟨"a", "b", 4, 1, 2⟩] : List Item).map Item.price).sum
          / (([⟨"a", "b", 4, 1, 2⟩] : List Item).length : ℚ)) :=
  ⟨C7_no_average_on_empty.1, List.cons_ne_nil _ _,
    C7_no_average_on_empty.2 _ (List.cons_ne_nil _ _)⟩

/-- C8: for every collection and every in-range candidate record, the Add
action appends the candidate as the last element, grows the length by
exactly one, leaves every existing element unchanged, and persists; it never
rejects a duplicate name (the conclusion holds for every candidate). -/
theorem C8_add_appends :
    ∀ (inv : List Item) (c : Item), validCandidate c →
      (addItem inv c).1 = inv ++ [c] ∧
      (addItem inv c).1.length = inv.length + 1 ∧
      (addItem inv c).1.take inv.length = inv ∧
      (addItem inv c).1.getLast? = some c ∧
      (addItem inv c).2 = true := by
  intro inv c _
  refine ⟨rfl, by simp [addItem], ?_, ?_, rfl⟩
  · show (inv ++ [c]).take inv.length = inv
    exact List.take_left inv [c]
  · show (inv ++ [c]).getLast? = some c
    exact List.getLast?_concat inv

/-- Witness for C8: adding a valid candidate to a one-item collection. -/
theorem C8_add_appends_witness :
    validCandidate ⟨"n", "c", 1, 2, 3⟩ ∧
    ((addItem [⟨"a", "b", 1, 1, 1⟩] ⟨"n", "c", 1, 2, 3⟩).1
        = [⟨"a", "b", 1, 1, 1⟩] ++ [⟨"n", "c", 1, 2, 3⟩] ∧
      (addItem [⟨"a", "b", 1, 1, 1⟩] ⟨"n", "c", 1, 2, 3⟩).1.length
        = ([⟨"a", "b", 1, 1, 1⟩] : List Item).length + 1 ∧
      (addItem [⟨"a", "b", 1, 1, 1⟩] ⟨"n", "c", 1, 2, 3⟩).1.take
          ([⟨"a", "b", 1, 1, 1⟩] : List Item).length = [⟨"a", "b", 1, 1, 1⟩] ∧
      (addItem [⟨"a", "b", 1, 1, 1⟩] ⟨"n", "c", 1, 2, 3⟩).1.getLast?
        = some ⟨"n", "c", 1, 2, 3⟩ ∧
      (addItem [⟨"a", "b", 1, 1, 1⟩] ⟨"n", "c", 1, 2, 3⟩).2 = true) :=
  ⟨by decide, C8_add_appends _ _ (by decide)⟩

lemma editFirst_none_of_no_match {target : String} (p : ℚ) (s : ℤ) (r : ℚ)
    {l : List Item} (h : ∀ it ∈ l, (pyLower it.name == target) = false) :
    editFirst target p s r l = none := by
  induction l with
  | nil => rfl
  | cons a l ih =>
    have ha := h a (List.mem_cons_self a l)
    simp only [editFirst, ha, Bool.false_eq_true, if_false,
      ih (fun it hit => h it (List.mem_cons_of_mem _ hit)), Option.map_none']

lemma no_match_of_editFirst_none {target : String} {p : ℚ} {s : ℤ} {r : ℚ}
    {l : List Item} (hnone : editFirst target p s r l = none) :
    ∀ it ∈ l, (pyLower it.name == target) = false := by
  induction l with
  | nil => intro it hit; cases hit
  | cons a l ih =>
    intro it hit
    cases ha : pyLower a.name == target with
    | true =>
      rw [editFirst, if_pos ha] at hnone
      cases hnone
    | false =>
      rw [editFirst, if_neg (by simp [ha])] at hnone
      have hl : editFirst target p s r l = none := by
        cases he : editFirst target p s r l with
        | none => rfl
        | some l2 => rw [he] at hnone; cases hnone
      rcases List.mem_cons.mp hit with rfl | hit2
      · exact ha
      · exact ih hl it hit2

lemma editFirst_some_decomp {target : String} {p : ℚ} {s : ℤ} {r : ℚ} :
    ∀ {l l' : List Item}, editFirst target p s r l = some l' →
      ∃ l1 m l2, l = l1 ++ m :: l2 ∧
        (∀ x ∈ l1, (pyLower x.name == target) = false) ∧
        (pyLower m.name == target) = true ∧
        l' = l1 ++ (⟨m.name, m.category, p, s, r⟩ : Item) :: l2 := by
  intro l
  induction l with
  | nil => intro l' h; cases h
  | cons a l ih =>
    intro l' h
    cases ha : pyLower a.name == target with
    | true =>
      rw [editFirst, if_pos ha] at h
      refine ⟨[], a, l, rfl, fun x hx => absurd hx (List.not_mem_nil x), ha, ?_⟩
      exact (Option.some.inj h).symm
    | false =>
      rw [editFirst, if_neg (by simp [ha])] at h
      cases he : editFirst target p s r l with
      | none => rw [he] at h; cases h
      | some l2' =>
        rw [he] at h
        obtain ⟨l1, m, l2, hl, h1, hm, hl'⟩ := ih he
        refine ⟨a :: l1, m, l2, by rw [List.cons_append, ← hl], ?_, hm, ?_⟩
        · intro x hx
          rcases List.mem_cons.mp hx with rfl | hx2
          · exact ha
          · exact h1 x hx2
        · cases h
          rw [List.cons_append, ← hl']

/-- C9: Edit-by-Name acts on the first case-insensitive name match.  When no
item matches, the collection is unchanged, nothing is persisted and
not-found is reported; when a match exists, the collection splits as
`l1 ++ m :: l2` with `m` the first match, and the result overwrites only
`m`'s price, stock and rating (its name and category are kept, every other
item is untouched) and persists. -/
theorem C9_editByName_spec :
    ∀ (inv : List Item) (n : String) (p : ℚ) (s : ℤ) (r : ℚ),
      ((∀ it ∈ inv, nameMatches n it = false) →
        editByName inv n p s r = (inv, false)) ∧
      ((∃ it ∈ inv, nameMatches n it = true) →
        ∃ l1 m l2, inv = l1 ++ m :: l2 ∧
          (∀ x ∈ l1, nameMatches n x = false) ∧ nameMatches n m = true ∧
          editByName inv n p s r
            = (l1 ++ (⟨m.name, m.category, p, s, r⟩ : Item) :: l2, true)) := by
  intro inv n p s r
  constructor
  · intro h
    unfold editByName
    rw [editFirst_none_of_no_match p s r h]
  · rintro ⟨it, hit, hmatch⟩
    cases he : editFirst (pyLower n) p s r inv with
    | none =>
      have hfalse : nameMatches n it = false := no_match_of_editFirst_none he it hit
      rw [hmatch] at hfalse
      cases hfalse
    | some inv2 =>
      obtain ⟨l1, m, l2, hl, h1, hm, hl'⟩ := editFirst_some_decomp he
      refine ⟨l1, m, l2, hl, h1, hm, ?_⟩
      unfold editByName
      rw [he, hl']

/-- Witness for C9: a miss on `"zzz"` leaves the collection alone; a
case-insensitive hit of `"b"` on `{name:"B"}` edits that item. -/
theorem C9_editByName_spec_witness :
    (editByName [⟨"a", "c", 1, 1, 1⟩] "zzz" 9 9 9 = ([⟨"a", "c", 1, 1, 1⟩], false)) ∧
    (∃ l1 m l2,
      ([⟨"a", "c", 1, 1, 1⟩, ⟨"B", "d", 2, 2, 2⟩] : List Item) = l1 ++ m :: l2 ∧
      (∀ x ∈ l1, nameMatches "b" x = false) ∧ nameMatches "b" m = true ∧
      editByName [⟨"a", "c", 1, 1, 1⟩, ⟨"B", "d", 2, 2, 2⟩] "b" 9 8 4
        = (l1 ++ (⟨m.name, m.category, 9, 8, 4⟩ : Item) :: l2, true)) :=
  ⟨(C9_editByName_spec [⟨"a", "c", 1, 1, 1⟩] "zzz" 9 9 9).1 (by decide),
    (C9_editByName_spec [⟨"a", "c", 1, 1, 1⟩, ⟨"B", "d", 2, 2, 2⟩] "b" 9 8 4).2
      ⟨⟨"B", "d", 2, 2, 2⟩, by decide, by decide⟩⟩
